import Mathlib

/-!
Verification of the LightTaskSheet client-side sheet engine
(`public/script.js`): the hierarchical row model, migration, numbering,
selection, undo stack, and the row/column mutation operations.

Every definition below is a shallow embedding of the corresponding
JavaScript function.  Cell values are modelled as strings (the engine
treats them as opaque values); JavaScript arrays become `List`,
`splice`-insertions become `take`/`drop` decompositions which reproduce
the index-clamping behaviour of `Array.prototype.splice`, and the
nondeterministic `uid()` generator becomes an explicit supply of
identifiers `Nat → String`.
-/

namespace LTS

/-- Cell values; the engine never inspects their structure. -/
abbrev Cell := String

/-- Column definition: `{name, type, color}` from `script.js`.
The `type` field holds one of the strings `text`, `date`, `number`, `tags`. -/
structure Column where
  name : String
  type : String
  color : String
deriving Repr, DecidableEq

/-- Row object shape from `script.js`:
`{ id, cells, sub, parent, collapsed }`; a JavaScript `null` parent is
`none`. -/
structure Row where
  id : String
  cells : List Cell
  sub : Bool
  parent : Option String
  collapsed : Bool
deriving Repr, DecidableEq

/-- The sheet: ordered column list and flat ordered row list. -/
structure Sheet where
  columns : List Column
  rows : List Row
deriving Repr, DecidableEq

/-- The color palette constant `PALETTE`. -/
def PALETTE : List String :=
  ["#ffd8a8", "#c6f6d5", "#dbeafe", "#fde68a", "#fbcfe8", "#e6e6fa", "#d1fae5", "#fce7f3"]

/-- Models `Array.prototype.splice(i, 0, a)`: insert `a` before position `i`,
clamping `i` to the array length (the `take`/`drop` form does exactly
that). -/
def spliceIns {α : Type} (i : Nat) (a : α) (l : List α) : List α :=
  l.take i ++ a :: l.drop i

/-- Models `Array.prototype.splice(i, 0, ...xs)`: insert a whole list before
position `i` (clamped). -/
def spliceInsAll {α : Type} (i : Nat) (xs l : List α) : List α :=
  l.take i ++ xs ++ l.drop i

/-- Models `Array.prototype.splice(i, 1)`: remove the element at position `i`
(no-op when `i` is past the end). -/
def spliceDel {α : Type} (i : Nat) (l : List α) : List α :=
  l.take i ++ l.drop (i + 1)

/-- JavaScript `s || d` on strings: the empty string is falsy. -/
def jsOr (o : Option String) (d : String) : String :=
  match o with
  | some s => if s = "" then d else s
  | none => d

/-- JavaScript `s || null` on a string-or-null value: `""` collapses to
`null`. -/
def jsOrNull (o : Option String) : Option String :=
  match o with
  | some s => if s = "" then none else some s
  | none => none

/-! ## Migration (`migrateColumnsIfNeeded`, `migrateRowsIfNeeded`) -/

/-- The cell-collection loop of `migrateRowsIfNeeded` for the
indexed-object legacy shape:
`for(let i=0;i<1000;i++){ if(!(i in r)) break; cells.push(r[i]); }`.
The numeric-keyed fields of the legacy object are modelled as a partial
function `Nat → Option Cell`. -/
def collectIndexedCells (f : Nat → Option Cell) : List Cell :=
  go 1000 0
where
  /-- Walk keys `i, i+1, ...` with the given fuel, stopping at the first
  absent key. -/
  go : Nat → Nat → List Cell
    | 0, _ => []
    | fuel + 1, i =>
      match f i with
      | none => []
      | some v => v :: go fuel (i + 1)

/-- The three legacy row encodings accepted by `migrateRowsIfNeeded`:
a bare cell array, the indexed-object shape (numeric keys plus
`_id/_sub/_parent/_collapsed`), and the canonical object shape (whose
`cells` field may fail `Array.isArray`, modelled by `none`). -/
inductive JsRow where
  | arr (cells : List Cell)
  | idxObj (numKeys : Nat → Option Cell) (idF : Option String) (subF : Bool)
      (parentF : Option String) (collapsedF : Bool)
  | obj (idF : Option String) (cellsF : Option (List Cell)) (subF : Bool)
      (parentF : Option String) (collapsedF : Bool)

/-- One step of `migrateRowsIfNeeded`'s `map`; `fresh` stands for the
`uid()` call used when the row carries no identifier. -/
def migrateJsRow (fresh : String) : JsRow → Row
  | .arr cells =>
      { id := fresh, cells := cells, sub := false, parent := none, collapsed := false }
  | .idxObj f idF s pF c =>
      { id := jsOr idF fresh, cells := collectIndexedCells f, sub := s,
        parent := jsOrNull pF, collapsed := c }
  | .obj idF cellsF s pF c =>
      { id := jsOr idF fresh, cells := cellsF.getD [], sub := s,
        parent := jsOrNull pF, collapsed := c }

/-- Embeds `migrateRowsIfNeeded` over a loaded row list, with an indexed supply
of fresh identifiers (`uid()` is called at most once per row). -/
def migrateRowsIfNeeded (ids : Nat → String) (rows : List JsRow) : List Row :=
  rows.enum.map fun p => migrateJsRow (ids p.1) p.2

/-- Embeds `migrateColumnsIfNeeded` restricted to the already-object-shaped
branch (the canonical typed model): empty-string fields are falsy in
JavaScript and get their defaults. -/
def migrateColumn (i : Nat) (c : Column) : Column :=
  { name := if c.name = "" then "Column " ++ toString (i + 1) else c.name,
    type := if c.type = "" then "text" else c.type,
    color := if c.color = "" then PALETTE.getD (i % PALETTE.length) "" else c.color }

/-- Embeds `migrateColumnsIfNeeded` on a canonical sheet. -/
def migrateColumnsIfNeeded (cols : List Column) : List Column :=
  cols.enum.map fun p => migrateColumn p.1 p.2

/-- Embeds `migrateRowsIfNeeded` on a row that is already canonical (the final
branch of the `map`): the identifier and parent go through JavaScript
`||`. -/
def migrateCanonRow (fresh : String) (r : Row) : Row :=
  { id := jsOr (some r.id) fresh, cells := r.cells, sub := r.sub,
    parent := jsOrNull r.parent, collapsed := r.collapsed }

/-- Embeds `normalizeRows`: pad every row's cell array with `''` or truncate it
so its length equals the column count. -/
def normalizeRows (ncols : Nat) (rows : List Row) : List Row :=
  rows.map fun r =>
    { r with cells := (r.cells ++ List.replicate (ncols - r.cells.length) "").take ncols }

/-- The `migrateColumnsIfNeeded(); migrateRowsIfNeeded(); normalizeRows()`
sequence run by `Undo.undo` on a `modify-sheet` record. -/
def renormalizeSheet (ids : Nat → String) (s : Sheet) : Sheet :=
  let cols := migrateColumnsIfNeeded s.columns
  let rows := (s.rows.enum.map fun p => migrateCanonRow (ids p.1) p.2)
  { columns := cols, rows := normalizeRows cols.length rows }

/-! ## Visibility projection and hierarchical numbering -/

/-- The collapsed-state map built by
`rows.forEach(r => { if(!r.sub) collapsed[r.id] = !!r.collapsed; })`:
a later non-sub row with the same id overwrites an earlier one, and a
missing key reads back as falsy. -/
def collapsedMap (rows : List Row) (pid : String) : Bool :=
  match ((rows.filter fun r => !r.sub).reverse.find? fun r => r.id == pid) with
  | some r => r.collapsed
  | none => false

/-- The row-skipping test `r.sub && r.parent && collapsed[r.parent]`
(`continue` when true); a `null` or empty-string parent is falsy. -/
def isSkipped (rows : List Row) (r : Row) : Bool :=
  r.sub &&
    (match r.parent with
     | some p => decide (p ≠ "") && collapsedMap rows p
     | none => false)

/-- The visible subsequence of the flat row list. -/
def visibleRows (rows : List Row) : List Row :=
  rows.filter fun r => !isSkipped rows r

/-- State of the numbering walk in `computeHierNumber`: the top-level
counter `pnum`, the per-key child-counter object (JavaScript indexes it
with `v.parent`, coercing `null` to the string key `"null"`), and the
numbering strings produced so far. -/
structure NumSt where
  pnum : Nat
  childCount : String → Nat
  nums : List String

/-- One iteration of the `for(const v of visible)` numbering loop. -/
def numStep (st : NumSt) (v : Row) : NumSt :=
  if !v.sub then
    { pnum := st.pnum + 1,
      childCount := fun k => if k = v.id then 0 else st.childCount k,
      nums := st.nums ++ [toString (st.pnum + 1)] }
  else
    let key := v.parent.getD "null"
    let parentNum := st.nums.getLast?.getD "1"
    let c := st.childCount key + 1
    { pnum := st.pnum,
      childCount := fun k => if k = key then c else st.childCount k,
      nums := st.nums ++ [parentNum ++ "." ++ toString c] }

/-- The numbering strings assigned along the visible sequence. -/
def numberingList (visible : List Row) : List String :=
  (visible.foldl numStep ⟨0, fun _ => 0, []⟩).nums

/-- The loop mapping a flat row index to its position in the visible
sequence (`vi`); an invisible or out-of-range index yields `none`
(JavaScript `-1`). -/
def visIndexOf (rows : List Row) (rowIndex : Nat) : Option Nat :=
  ((List.range rows.length).filter fun i =>
      match rows[i]? with
      | some r => !isSkipped rows r
      | none => false).findIdx? fun i => i == rowIndex

/-- Embeds `computeHierNumber(rowIndex)`: the hierarchical number string of
the row at a flat index, `''` when the row is invisible, with the
`numbering[vi] || (vi+1).toString()` fallback. -/
def computeHierNumber (rows : List Row) (rowIndex : Nat) : String :=
  match visIndexOf rows rowIndex with
  | none => ""
  | some vi =>
    match (numberingList (visibleRows rows))[vi]? with
    | some s => if s = "" then toString (vi + 1) else s
    | none => toString (vi + 1)

/-! ## Selection (`Selection.toggle`) -/

/-- Selection state: the `Set` of selected row ids (modelled as the list
of members in insertion order) and the `lastClicked` anchor. -/
structure SelState where
  selected : List String
  lastClicked : Option String
deriving Repr, DecidableEq

/-- JavaScript `Set.prototype.add`: append unless already a member. -/
def jsSetAdd (x : String) (s : List String) : List String :=
  if x ∈ s then s else s ++ [x]

/-- JavaScript `Array.prototype.indexOf` (first occurrence; `-1` becomes
`none`). -/
def jsIndexOf (x : String) : List String → Option Nat
  | [] => none
  | y :: t => if y = x then some 0 else (jsIndexOf x t).map (· + 1)

/-- Embeds `Selection.toggle(id, shift, meta)` against the flat row list. -/
def toggle (rows : List Row) (st : SelState) (id : String) (shift meta : Bool) :
    SelState :=
  if shift && !(st.lastClicked.getD "" == "") then
    let a := st.lastClicked.getD ""
    let ids := rows.map Row.id
    match jsIndexOf a ids, jsIndexOf id ids with
    | some ia, some ib =>
      let lo := min ia ib
      let hi := max ia ib
      { st with selected := ((ids.take (hi + 1)).drop lo).foldl (fun s x => jsSetAdd x s) st.selected }
    | _, _ =>
      { st with selected := jsSetAdd id st.selected, lastClicked := some id }
  else if meta then
    { st with
      selected := if id ∈ st.selected then st.selected.erase id else st.selected ++ [id],
      lastClicked := some id }
  else
    { selected := [id], lastClicked := some id }

/-! ## Undo stack (`Undo`) -/

/-- Undo records: `delete-rows` carries `{index, row}` items, `modify-sheet`
carries a full snapshot. -/
inductive UndoAction where
  | deleteRows (items : List (Nat × Row))
  | modifySheet (prev : Sheet)

/-- Embeds `Undo.push`: append, then drop the oldest entry when the stack
exceeds `LIMIT = 20`. -/
def undoPush (a : UndoAction) (stack : List UndoAction) : List UndoAction :=
  let s := stack ++ [a]
  if 20 < s.length then s.tail else s

/-- Pushing a sequence of records in order. -/
def undoPushAll (acts : List UndoAction) (stack : List UndoAction) : List UndoAction :=
  acts.foldl (fun st a => undoPush a st) stack

/-- The inverse application inside `Undo.undo`: re-splice `delete-rows`
items in recorded order, or replace the sheet with a `modify-sheet`
snapshot and re-normalize. -/
def applyUndo (ids : Nat → String) (a : UndoAction) (s : Sheet) : Sheet :=
  match a with
  | .deleteRows items =>
    let rows := items.foldl (fun rs p => spliceIns p.1 p.2 rs) s.rows
    { s with rows := normalizeRows s.columns.length rows }
  | .modifySheet prev => renormalizeSheet ids prev

/-- Embeds `Undo.undo()`: pop the most recent record and apply its inverse;
an empty stack is a no-op. -/
def undoStep (ids : Nat → String) (st : List UndoAction × Sheet) :
    List UndoAction × Sheet :=
  match st.1.getLast? with
  | none => st
  | some a => (st.1.dropLast, applyUndo ids a st.2)

/-! ## Row operations -/

/-- The deletion scan inside `deleteRowByIndex` for a non-sub target:
walk the array with cursor `i`; a row whose id matches is removed and
recorded at the current cursor, after which the immediately following
rows satisfying `r.sub && r.parent === tid` are removed in a cascade,
each recorded at the same (post-removal) cursor position; otherwise the
cursor advances.  `cascade` is true exactly while the inner `while` of
the JavaScript loop is running.  Returns the kept rows and the recorded
`{index, row}` items in push order. -/
def scanDel (tid : String) : Nat → Bool → List Row → List Row × List (Nat × Row)
  | _, _, [] => ([], [])
  | i, cascade, r :: rest =>
    if cascade && r.sub && r.parent == some tid then
      let next := scanDel tid i true rest
      (next.1, (i, r) :: next.2)
    else if r.id = tid then
      let next := scanDel tid i true rest
      (next.1, (i, r) :: next.2)
    else
      let next := scanDel tid (i + 1) false rest
      (r :: next.1, next.2)

/-- Embeds `deleteRowByIndex(index)` (with the confirmation prompt answered
yes): returns the new row list together with the `delete-rows` items
pushed onto the undo stack. -/
def deleteRowByIndex (rows : List Row) (index : Nat) : List Row × List (Nat × Row) :=
  match rows[index]? with
  | none => (rows, [])
  | some row =>
    if row.sub then (spliceDel index rows, [(index, row)])
    else scanDel row.id 0 false rows

/-- Embeds `duplicateRow(index)`: `ids 0` is the `uid()` drawn for the copy
and `ids (k+1)` the one drawn for the copy of the `k`-th sub-row.  For a
non-sub row the copy goes after the whole original group; its sub-rows
are deep-copied with `parent` rebound to the copy's id and appended
after the copy (the JavaScript loop over `sheet.rows` stops at the
freshly inserted non-sub copy). -/
def duplicateRow (rows : List Row) (index : Nat) (ids : Nat → String) : List Row :=
  match rows[index]? with
  | none => rows
  | some row =>
    let copy := { row with id := ids 0 }
    if row.sub then
      spliceIns (index + 1) copy rows
    else
      let subs := (rows.drop (index + 1)).takeWhile fun s => s.sub && s.parent == some row.id
      let copies := subs.enum.map fun p => { p.2 with id := ids (p.1 + 1), parent := some copy.id }
      rows.take (index + 1) ++ subs ++ copy :: copies ++ rows.drop (index + 1 + subs.length)

/-- Embeds `insertRowAt(index)`: splice a fresh non-sub row at an arbitrary
flat position.  The cell array is `new Array(ncols).fill('')` followed
by `cells[0] = nowISO()`, which on a zero-column sheet still creates
index 0. -/
def insertRowAt (s : Sheet) (index : Nat) (newId ts : String) : Sheet :=
  let cells :=
    match List.replicate s.columns.length ("" : Cell) with
    | [] => [ts]
    | _ :: t => ts :: t
  { s with
    rows := spliceIns index
      { id := newId, cells := cells, sub := false, parent := none, collapsed := false }
      s.rows }

/-- Embeds the drop handler `onDragEnd`: map the target visible index to a
flat index through the collapse filter (an index equal to the visible
count reads `mapping[mapping.length]`, which is `undefined`, so the drop
is abandoned), remove the source row together with its contiguous
sub-block, shift the destination left by the removed count when it lay
after the source, and re-splice the group there (a negative adjusted
destination counts from the end, as `splice` does). -/
def onDragEnd (rows : List Row) (srcIndex : Nat) (targetVisibleIndex : Option Nat) :
    List Row :=
  match targetVisibleIndex with
  | none => rows
  | some tvi =>
    let mapping := (List.range rows.length).filter fun i =>
      match rows[i]? with
      | some r => !isSkipped rows r
      | none => false
    match mapping[min tvi mapping.length]? with
    | none => rows
    | some dest =>
      match rows[srcIndex]? with
      | none => rows
      | some src =>
        let srcCount :=
          1 + ((rows.drop (srcIndex + 1)).takeWhile fun s =>
                s.sub && s.parent == some src.id).length
        let removed := (rows.drop srcIndex).take srcCount
        let remaining := rows.take srcIndex ++ rows.drop (srcIndex + srcCount)
        let adjRaw : Int := if srcIndex < dest then (dest : Int) - srcCount else dest
        let adjustedDest : Nat :=
          if adjRaw < 0 then (max 0 ((remaining.length : Int) + adjRaw)).toNat
          else adjRaw.toNat
        spliceInsAll adjustedDest removed remaining

/-! ## Column operations -/

/-- Embeds `deleteColumn(index)`: refuse when at most one column remains,
otherwise splice out the column definition and the cell at the same
index in every row. -/
def deleteColumn (s : Sheet) (index : Nat) : Sheet :=
  if s.columns.length ≤ 1 then s
  else
    { columns := spliceDel index s.columns,
      rows := s.rows.map fun r => { r with cells := spliceDel index r.cells } }

/-! ## The sub-block contiguity invariant -/

/-- Scanner state while inside the sub-block of the non-sub row with id
`pid`: each sub-row must point back at `pid`; a non-sub row opens a new
block keyed by its own id. -/
def chkSubs (pid : String) : List Row → Bool
  | [] => true
  | s :: rest =>
    if s.sub then (s.parent == some pid) && chkSubs pid rest
    else chkSubs s.id rest

/-- Executable form of the grouping invariant: the row list is a
concatenation of groups, each a non-sub row followed by sub-rows whose
`parent` is that row's id. -/
def groupedChk : List Row → Bool
  | [] => true
  | r :: rest => !r.sub && chkSubs r.id rest

/-- All rows claiming `pid` as parent, in storage order. -/
def subsOf (rows : List Row) (pid : String) : List Row :=
  rows.filter fun r => r.sub && r.parent == some pid

/-- Identifiers of the non-sub rows, in storage order. -/
def nonSubIds (rows : List Row) : List String :=
  (rows.filter fun r => !r.sub).map Row.id

/-- The spec-level sub-block contiguity invariant: for every sub-row, all
rows sharing its parent form one contiguous run in storage order that
immediately follows the parent row. -/
def subBlockContig (rows : List Row) : Prop :=
  ∀ r ∈ rows, r.sub = true →
    ∃ pid pre post p, r.parent = some pid ∧ p.sub = false ∧ p.id = pid ∧
      rows = pre ++ p :: subsOf rows pid ++ post

/-! ## Concrete fixtures used for witnesses and counterexamples -/

/-- A parent row. -/
def rowP : Row := { id := "p", cells := ["a"], sub := false, parent := none, collapsed := false }

/-- First sub-row of `rowP`. -/
def rowS1 : Row := { id := "s1", cells := ["b"], sub := true, parent := some "p", collapsed := false }

/-- Second sub-row of `rowP`. -/
def rowS2 : Row := { id := "s2", cells := ["c"], sub := true, parent := some "p", collapsed := false }

/-- A second parent row. -/
def rowQ : Row := { id := "q", cells := ["d"], sub := false, parent := none, collapsed := false }

/-- First sub-row of `rowQ`. -/
def rowS3 : Row := { id := "s3", cells := ["e"], sub := true, parent := some "q", collapsed := false }

/-- Second sub-row of `rowQ`. -/
def rowS4 : Row := { id := "s4", cells := ["f"], sub := true, parent := some "q", collapsed := false }

/-- A one-column layout. -/
def col1 : Column := { name := "Task", type := "text", color := "#ffd8a8" }

/-- A second column. -/
def col2 : Column := { name := "Notes", type := "text", color := "#c6f6d5" }

/-- Sheet with one column and the group `p, s1, s2`. -/
def exSheet3 : Sheet := { columns := [col1], rows := [rowP, rowS1, rowS2] }

/-- Twenty-five undo records, tagged by their push order. -/
def wActs : List UndoAction := (List.range 25).map fun i => UndoAction.deleteRows [(i, rowP)]

/-- A deterministic identifier supply for witnesses. -/
def wIds : Nat → String := fun n => "new" ++ toString n

/-! ## General list helpers -/

theorem getElem_append_len {α : Type} (pre : List α) (x : α) (t : List α) :
    (pre ++ x :: t)[pre.length]? = some x := by
  induction pre with
  | nil => simp
  | cons a p ih => simpa using ih

theorem take_append_len {α : Type} (pre : List α) (x : α) (t : List α) :
    (pre ++ x :: t).take (pre.length + 1) = pre ++ [x] := by
  induction pre with
  | nil => rfl
  | cons a p ih => simpa using congrArg (List.cons a) ih

theorem drop_append_len {α : Type} (pre : List α) (x : α) (t : List α) :
    (pre ++ x :: t).drop (pre.length + 1) = t := by
  induction pre with
  | nil => rfl
  | cons a p ih => simpa using ih

theorem drop_len_takeWhile {α : Type} (p : α → Bool) (l : List α) :
    l.drop (l.takeWhile p).length = l.dropWhile p := by
  induction l with
  | nil => rfl
  | cons a t ih =>
    simp only [List.takeWhile, List.dropWhile]
    cases h : p a <;> simp [ih]

/-! ## Claim C7: column deletion -/

/-- C7.  Deleting a column from a sheet with a single column is refused
and has no effect; with more than one column and a valid index, the
column definition at that index and the cell at the same index of every
row are removed. -/
theorem deleteColumn_spec (s : Sheet) (index : Nat) :
    (s.columns.length = 1 → deleteColumn s index = s) ∧
    (1 < s.columns.length → index < s.columns.length →
      (deleteColumn s index).columns =
        s.columns.take index ++ s.columns.drop (index + 1) ∧
      (deleteColumn s index).rows = s.rows.map fun r =>
        { r with cells := r.cells.take index ++ r.cells.drop (index + 1) }) := by
  constructor
  · intro h
    simp [deleteColumn, h]
  · intro h _
    rw [deleteColumn, if_neg (by omega)]
    exact ⟨rfl, rfl⟩

/-- Witness for `deleteColumn_spec` at concrete sheets: a one-column sheet
is unchanged, and on a two-column sheet the first column and first cells
disappear. -/
theorem deleteColumn_spec_witness :
    deleteColumn { columns := [col1], rows := [rowP] } 0 = { columns := [col1], rows := [rowP] } ∧
    (deleteColumn { columns := [col1, col2], rows := [rowP] } 0).columns = [col2] := by
  refine ⟨(deleteColumn_spec { columns := [col1], rows := [rowP] } 0).1 rfl, ?_⟩
  have h := ((deleteColumn_spec { columns := [col1, col2], rows := [rowP] } 0).2
      (by decide) (by decide)).1
  simpa using h

/-! ## Claim C10: duplicating a sub-row -/

/-- C10.  Duplicating a sub-row inserts exactly one new row immediately
after it: a copy of the row with a fresh identifier and the same
`parent`; every other row is untouched. -/
theorem duplicateRow_subrow (rows : List Row) (index : Nat) (ids : Nat → String)
    (r : Row) (hget : rows[index]? = some r) (hsub : r.sub = true) :
    duplicateRow rows index ids =
      rows.take (index + 1) ++ { r with id := ids 0 } :: rows.drop (index + 1) := by
  simp [duplicateRow, hget, hsub, spliceIns]

/-- Witness for `duplicateRow_subrow`: duplicating `s1` inside
`[p, s1, s2]` yields `[p, s1, copy, s2]` with the copy parented to `p`. -/
theorem duplicateRow_subrow_witness :
    duplicateRow [rowP, rowS1, rowS2] 1 wIds =
      [rowP, rowS1, { rowS1 with id := wIds 0 }, rowS2] := by
  have h := duplicateRow_subrow [rowP, rowS1, rowS2] 1 wIds rowS1 rfl rfl
  simpa using h

/-! ## Claim C6: undo stack capacity -/

theorem undoPushAll_eq_drop : ∀ (acts stack : List UndoAction), stack.length ≤ 20 →
    undoPushAll acts stack = (stack ++ acts).drop (stack.length + acts.length - 20) := by
  intro acts
  induction acts with
  | nil =>
    intro stack h
    simp [undoPushAll, Nat.sub_eq_zero_of_le h]
  | cons a t ih =>
    intro stack h
    show undoPushAll t (undoPush a stack) = _
    rcases Nat.lt_or_ge stack.length 20 with hlt | hge
    · have hpush : undoPush a stack = stack ++ [a] := by
        simp only [undoPush]
        rw [if_neg (by simp; omega)]
      rw [hpush, ih (stack ++ [a]) (by simp; omega)]
      have harith : (stack ++ [a]).length + t.length - 20 =
          stack.length + (a :: t).length - 20 := by simp; omega
      rw [harith, List.append_assoc]
      simp
    · have h20 : stack.length = 20 := by omega
      have hpush : undoPush a stack = (stack ++ [a]).tail := by
        simp only [undoPush]
        rw [if_pos (by simp [h20])]
      have hne : stack ≠ [] := by
        intro hnil; rw [hnil] at h20; simp at h20
      obtain ⟨b, stack2, rfl⟩ := List.exists_cons_of_ne_nil hne
      have hs2 : stack2.length = 19 := by simp at h20; omega
      rw [hpush, ih ((b :: stack2 ++ [a]).tail) (by simp [hs2])]
      simp only [List.cons_append, List.tail_cons]
      have h1 : (stack2 ++ [a]).length + t.length - 20 = t.length := by simp [hs2]
      have h2 : (b :: stack2).length + (a :: t).length - 20 = t.length + 1 := by
        simp [hs2]
      rw [h1, h2, List.drop_succ_cons]
      simp

/-- C6.  The undo log is a bounded stack of capacity 20 with oldest-first
eviction: pushing 25 records in order leaves exactly the 20 most recent
on the stack (in order), each `undo()` pops exactly the most recent
record and applies its inverse, and `undo()` on an empty stack is a
no-op that leaves the sheet unchanged. -/
theorem undo_stack_capacity (acts : List UndoAction) (ids : Nat → String)
    (h : acts.length = 25) :
    undoPushAll acts [] = acts.drop 5 ∧
    (∀ (stack : List UndoAction) (a : UndoAction) (s : Sheet),
        undoStep ids (stack ++ [a], s) = (stack, applyUndo ids a s)) ∧
    (∀ s : Sheet, undoStep ids ([], s) = ([], s)) := by
  refine ⟨?_, ?_, ?_⟩
  · have := undoPushAll_eq_drop acts [] (by simp)
    simpa [h] using this
  · intro stack a s
    simp [undoStep, List.getLast?_concat, List.dropLast_concat]
  · intro s
    rfl

/-- Witness for `undo_stack_capacity`: the 25 concrete records `wActs`
leave exactly records 5..24 on the stack. -/
theorem undo_stack_capacity_witness :
    wActs.length = 25 ∧ undoPushAll wActs [] = wActs.drop 5 :=
  ⟨by simp [wActs], (undo_stack_capacity wActs wIds (by simp [wActs])).1⟩

/-! ## Claim C9: legacy indexed-object cell migration -/

theorem collectIndexedCells_go_spec :
    ∀ (fuel : Nat) (f : Nat → Option Cell) (i n : Nat),
      (∀ j, j < n → (f (i + j)).isSome) → (n < fuel → f (i + n) = none) → n ≤ fuel →
      (collectIndexedCells.go f fuel i).length = n ∧
      ∀ j, (collectIndexedCells.go f fuel i)[j]? = if j < n then f (i + j) else none := by
  intro fuel
  induction fuel with
  | zero =>
    intro f i n _ _ h3
    have hn : n = 0 := Nat.le_zero.mp h3
    subst hn
    exact ⟨rfl, by intro j; simp [collectIndexedCells.go]⟩
  | succ fuel ih =>
    intro f i n h1 h2 h3
    cases n with
    | zero =>
      have hnone : f (i + 0) = none := h2 (Nat.succ_pos fuel)
      simp only [Nat.add_zero] at hnone
      constructor
      · simp [collectIndexedCells.go, hnone]
      · intro j; simp [collectIndexedCells.go, hnone]
    | succ m =>
      have hsome : (f i).isSome := by simpa using h1 0 (Nat.succ_pos m)
      obtain ⟨v, hv⟩ := Option.isSome_iff_exists.mp hsome
      have ihm := ih f (i + 1) m
        (fun j hj => by
          have := h1 (j + 1) (by omega)
          simpa [Nat.add_assoc, Nat.add_comm 1 j] using this)
        (fun hm => by
          have := h2 (by omega)
          simpa [Nat.add_assoc, Nat.add_comm 1 m] using this)
        (by omega)
      constructor
      · simp [collectIndexedCells.go, hv, ihm.1]
      · intro j
        cases j with
        | zero => simp [collectIndexedCells.go, hv]
        | succ k =>
          have := ihm.2 k
          simp only [collectIndexedCells.go, hv]
          simpa [Nat.add_assoc, Nat.add_comm 1 k, Nat.succ_lt_succ_iff] using this

/-- C9.  Migrating a legacy indexed-object row collects cell values from
consecutive numeric keys `0, 1, 2, ...`, stops at the first absent
index, reads at most 1000 keys, and drops every value that sits after a
gap or at index 1000 and beyond: the resulting `cells` array has length
`n` (the stop point) and reproduces `f` below `n`. -/
theorem migrate_indexed_cells_spec (f : Nat → Option Cell)
    (idF pF : Option String) (sF cF : Bool) (fresh : String) (n : Nat)
    (h1 : ∀ j, j < n → (f j).isSome) (h2 : n < 1000 → f n = none) (h3 : n ≤ 1000) :
    (migrateJsRow fresh (.idxObj f idF sF pF cF)).cells = collectIndexedCells f ∧
    (collectIndexedCells f).length = n ∧
    ∀ j, (collectIndexedCells f)[j]? = if j < n then f j else none := by
  have h := collectIndexedCells_go_spec 1000 f 0 n (by simpa using h1) (by simpa using h2) h3
  exact ⟨rfl, h.1, by simpa using h.2⟩

/-- Witness for `migrate_indexed_cells_spec`: keys `0 ↦ "a"`, `2 ↦ "b"`
with a gap at 1 migrate to the single-cell array `["a"]`; the value at
key 2 is dropped. -/
theorem migrate_indexed_cells_spec_witness :
    (collectIndexedCells fun i => if i = 0 then some "a" else if i = 2 then some "b" else none).length = 1 ∧
    ∀ j, (collectIndexedCells fun i => if i = 0 then some "a" else if i = 2 then some "b" else none)[j]? =
      if j < 1 then (fun i => if i = 0 then some "a" else if i = 2 then some "b" else none) j else none := by
  have h := migrate_indexed_cells_spec
    (fun i => if i = 0 then some "a" else if i = 2 then some "b" else none)
    none none false false "w" 1 (by decide) (by intro; rfl) (by decide)
  exact ⟨h.2.1, h.2.2⟩

/-! ## Claim C1: cascading delete and its undo -/

/-- C1 (divergence witness).  Deleting the parent `p` of two sub-rows from
`[p, s1, s2, q]` does remove exactly 3 rows in one operation, but every
removed row is recorded at the post-removal index 0, so the single
`undo()` that follows re-splices them in push order and restores the
group reversed: the sheet comes back as `[s2, s1, p, q]`, not the
original `[p, s1, s2, q]`. -/
theorem deleteRow_undo_divergence :
    (deleteRowByIndex [rowP, rowS1, rowS2, rowQ] 0).1 = [rowQ] ∧
    (deleteRowByIndex [rowP, rowS1, rowS2, rowQ] 0).2 =
      [(0, rowP), (0, rowS1), (0, rowS2)] ∧
    (applyUndo (fun _ => "u")
        (UndoAction.deleteRows (deleteRowByIndex [rowP, rowS1, rowS2, rowQ] 0).2)
        { columns := [col1], rows := (deleteRowByIndex [rowP, rowS1, rowS2, rowQ] 0).1 }).rows
      = [rowS2, rowS1, rowP, rowQ] ∧
    (applyUndo (fun _ => "u")
        (UndoAction.deleteRows (deleteRowByIndex [rowP, rowS1, rowS2, rowQ] 0).2)
        { columns := [col1], rows := (deleteRowByIndex [rowP, rowS1, rowS2, rowQ] 0).1 }).rows
      ≠ [rowP, rowS1, rowS2, rowQ] := by
  refine ⟨by decide, by decide, by decide, by decide⟩

/-! ## Claim C2: hierarchical numbering -/

/-- C2 (divergence witness).  On the expanded sheet `[p, s1, s2, q, s3]`
the numbering walk takes each sub-row's prefix from the previously
assigned number rather than from its parent's number: the second sub-row
of `p` is numbered `1.1.2`, not `1.2`, so the sequence is
`1, 1.1, 1.1.2, 2, 2.1`. -/
theorem hierNumber_second_subrow_divergence :
    computeHierNumber [rowP, rowS1, rowS2, rowQ, rowS3] 2 = "1.1.2" ∧
    computeHierNumber [rowP, rowS1, rowS2, rowQ, rowS3] 2 ≠ "1.2" ∧
    (List.range 5).map (computeHierNumber [rowP, rowS1, rowS2, rowQ, rowS3]) =
      ["1", "1.1", "1.1.2", "2", "2.1"] := by
  refine ⟨by decide, by decide, by decide⟩

/-! ## Claim C4: duplicating a parent with two sub-rows -/

theorem drop_append_len3 {α : Type} (pre : List α) (x y z : α) (t : List α) :
    (pre ++ x :: y :: z :: t).drop (pre.length + 1 + 2) = t := by
  induction pre with
  | nil => rfl
  | cons a p ih => simpa [Nat.add_right_comm] using ih

/-- C4.  Duplicating a non-sub row that owns exactly two sub-rows inserts
exactly three new rows — a copy of the parent with the fresh id `ids 0`
and copies of the two sub-rows with the fresh ids `ids 1` and `ids 2` —
immediately after the last existing sub-row of the original group, and
both copied sub-rows have `parent` equal to the copy's id, not the
original's. -/
theorem duplicateRow_parent_two_subs (pre post : List Row) (P S1 S2 : Row)
    (ids : Nat → String)
    (hP : P.sub = false) (h1 : S1.sub = true) (h1p : S1.parent = some P.id)
    (h2 : S2.sub = true) (h2p : S2.parent = some P.id)
    (hpost : post.takeWhile (fun s => s.sub && s.parent == some P.id) = []) :
    duplicateRow (pre ++ P :: S1 :: S2 :: post) pre.length ids =
      pre ++ P :: S1 :: S2 :: { P with id := ids 0 } ::
        { S1 with id := ids 1, parent := some (ids 0) } ::
        { S2 with id := ids 2, parent := some (ids 0) } :: post := by
  have hget := getElem_append_len pre P (S1 :: S2 :: post)
  have hdrop := drop_append_len pre P (S1 :: S2 :: post)
  have htake := take_append_len pre P (S1 :: S2 :: post)
  have hdrop3 := drop_append_len3 pre P S1 S2 post
  have hsubs : (S1 :: S2 :: post).takeWhile (fun s => s.sub && s.parent == some P.id) =
      [S1, S2] := by
    simp [List.takeWhile_cons, h1, h1p, h2, h2p, hpost]
  simp only [duplicateRow, hget, hP, Bool.false_eq_true, if_false, hdrop, hsubs, htake]
  simp only [List.enum, List.enumFrom, List.map, List.length_cons, List.length_nil]
  rw [hdrop3]
  simp

/-- Witness for `duplicateRow_parent_two_subs` on the concrete sheet
`[p, s1, s2, q]`. -/
theorem duplicateRow_parent_two_subs_witness :
    duplicateRow [rowP, rowS1, rowS2, rowQ] 0 wIds =
      [rowP, rowS1, rowS2, { rowP with id := wIds 0 },
        { rowS1 with id := wIds 1, parent := some (wIds 0) },
        { rowS2 with id := wIds 2, parent := some (wIds 0) }, rowQ] := by
  have h := duplicateRow_parent_two_subs [] [rowQ] rowP rowS1 rowS2 wIds
    rfl rfl rfl rfl rfl (by decide)
  simpa using h

/-! ## Claims C5 and C8: shift-click range selection -/

theorem jsIndexOf_spec :
    ∀ (l : List String) (x : String) (i : Nat),
      jsIndexOf x l = some i → i < l.length ∧ l[i]? = some x := by
  intro l
  induction l with
  | nil => intro x i h; cases h
  | cons y t ih =>
    intro x i h
    by_cases hy : y = x
    · rw [jsIndexOf, if_pos hy] at h
      cases h
      exact ⟨Nat.succ_pos _, by simp [hy]⟩
    · rw [jsIndexOf, if_neg hy] at h
      obtain ⟨j, hj, hij⟩ := Option.map_eq_some'.mp h
      obtain ⟨hlt, hget⟩ := ih x j hj
      subst hij
      exact ⟨by simpa using hlt, by simpa using hget⟩

theorem mem_jsSetAdd (a x : String) (s : List String) :
    x ∈ jsSetAdd a s ↔ x ∈ s ∨ x = a := by
  unfold jsSetAdd
  split
  · rename_i h
    constructor
    · exact Or.inl
    · rintro (hx | rfl)
      · exact hx
      · exact h
  · simp

theorem mem_foldl_jsSetAdd :
    ∀ (l s : List String) (x : String),
      x ∈ l.foldl (fun acc y => jsSetAdd y acc) s ↔ x ∈ s ∨ x ∈ l := by
  intro l
  induction l with
  | nil => simp
  | cons a t ih =>
    intro s x
    simp only [List.foldl_cons]
    rw [ih, mem_jsSetAdd]
    simp [or_assoc, or_comm (a := x = a)]

theorem mem_slice (l : List String) (lo hi : Nat) (x : String) :
    x ∈ (l.take (hi + 1)).drop lo ↔
      ∃ k, lo ≤ k ∧ k ≤ hi ∧ l[k]? = some x := by
  rw [List.mem_iff_getElem?]
  constructor
  · rintro ⟨j, hj⟩
    rw [List.getElem?_drop, List.getElem?_take] at hj
    by_cases hk : lo + j < hi + 1
    · rw [if_pos hk] at hj
      exact ⟨lo + j, Nat.le_add_right lo j, by omega, hj⟩
    · rw [if_neg hk] at hj
      cases hj
  · rintro ⟨k, hlo, hhi, hk⟩
    refine ⟨k - lo, ?_⟩
    rw [List.getElem?_drop, List.getElem?_take, if_pos (by omega),
      show lo + (k - lo) = k from by omega]
    exact hk

/-- C5.  With an existing anchor `a`, a shift-click on `id` over rows
whose flat id sequence contains both endpoints adds to the selection
exactly the ids at the inclusive flat-storage index range between the
two endpoints (independent of collapse state, which `toggle` never
consults); from the canonical plain-click anchor state `{a}` the
resulting selection is exactly that range.  When either endpoint is
missing from storage, only the clicked id is added. -/
theorem toggle_shift_range_select (rows : List Row) (st : SelState) (id a : String)
    (meta : Bool) (hanchor : st.lastClicked = some a) (hne : a ≠ "") :
    (∀ ia ib, jsIndexOf a (rows.map Row.id) = some ia →
        jsIndexOf id (rows.map Row.id) = some ib →
      (∀ x, x ∈ (toggle rows st id true meta).selected ↔
        (x ∈ st.selected ∨
          ∃ k, min ia ib ≤ k ∧ k ≤ max ia ib ∧ (rows.map Row.id)[k]? = some x)) ∧
      (st.selected = [a] → ∀ x, x ∈ (toggle rows st id true meta).selected ↔
        ∃ k, min ia ib ≤ k ∧ k ≤ max ia ib ∧ (rows.map Row.id)[k]? = some x)) ∧
    ((jsIndexOf a (rows.map Row.id) = none ∨ jsIndexOf id (rows.map Row.id) = none) →
      (toggle rows st id true meta).selected = jsSetAdd id st.selected ∧
      ∀ x, x ∈ (toggle rows st id true meta).selected ↔ x ∈ st.selected ∨ x = id) := by
  have hcond : (true && !(st.lastClicked.getD "" == "")) = true := by
    rw [hanchor]
    simpa using hne
  constructor
  · intro ia ib hia hib
    have hmain : ∀ x, x ∈ (toggle rows st id true meta).selected ↔
        (x ∈ st.selected ∨
          ∃ k, min ia ib ≤ k ∧ k ≤ max ia ib ∧ (rows.map Row.id)[k]? = some x) := by
      intro x
      rw [toggle, if_pos hcond]
      rw [hanchor]
      simp only [Option.getD_some]
      rw [hia, hib]
      simp only []
      rw [mem_foldl_jsSetAdd, mem_slice]
    refine ⟨hmain, ?_⟩
    intro hsel x
    rw [hmain x, hsel]
    constructor
    · rintro (hx | hx)
      · simp at hx
        refine ⟨ia, by omega, by omega, ?_⟩
        rw [hx]
        exact (jsIndexOf_spec _ a ia hia).2
      · exact hx
    · exact Or.inr
  · intro hmiss
    have hsel : (toggle rows st id true meta).selected = jsSetAdd id st.selected := by
      rw [toggle, if_pos hcond, hanchor]
      simp only [Option.getD_some]
      rcases hmiss with hm | hm
      · rw [hm]
      · cases h2 : jsIndexOf a (rows.map Row.id) with
        | none => rfl
        | some ia => rw [hm]
    exact ⟨hsel, fun x => by rw [hsel, mem_jsSetAdd]⟩

/-- Witness for `toggle_shift_range_select`: anchored at `p`, a
shift-click on `q` in `[p, s1, s2, q]` selects exactly all four rows;
instantiated at the id `s2`. -/
theorem toggle_shift_range_select_witness :
    "s2" ∈ (toggle [rowP, rowS1, rowS2, rowQ]
        { selected := ["p"], lastClicked := some "p" } "q" true false).selected ↔
      ∃ k, min 0 3 ≤ k ∧ k ≤ max 0 3 ∧
        ([rowP, rowS1, rowS2, rowQ].map Row.id)[k]? = some "s2" :=
  ((toggle_shift_range_select [rowP, rowS1, rowS2, rowQ]
      { selected := ["p"], lastClicked := some "p" } "q" "p" false rfl
      (by decide)).1 0 3 (by decide) (by decide)).2 rfl "s2"

/-- C8.  A shift-click whose anchor and clicked id are both found in flat
storage leaves the anchor unchanged; the anchor is reassigned to the
clicked id on the not-found fallback, on a modifier click, and on a
plain click. -/
theorem toggle_anchor_behavior (rows : List Row) (st : SelState) (id a : String)
    (meta : Bool) (hanchor : st.lastClicked = some a) (hne : a ≠ "") :
    (∀ ia ib, jsIndexOf a (rows.map Row.id) = some ia →
        jsIndexOf id (rows.map Row.id) = some ib →
      (toggle rows st id true meta).lastClicked = some a) ∧
    ((jsIndexOf a (rows.map Row.id) = none ∨ jsIndexOf id (rows.map Row.id) = none) →
      (toggle rows st id true meta).lastClicked = some id) ∧
    (∀ st2 : SelState, (toggle rows st2 id false true).lastClicked = some id ∧
      (toggle rows st2 id false false).lastClicked = some id) := by
  have hcond : (true && !(st.lastClicked.getD "" == "")) = true := by
    rw [hanchor]
    simpa using hne
  refine ⟨?_, ?_, ?_⟩
  · intro ia ib hia hib
    rw [toggle, if_pos hcond, hanchor]
    simp only [Option.getD_some]
    rw [hia, hib]
  · intro hmiss
    rw [toggle, if_pos hcond, hanchor]
    simp only [Option.getD_some]
    rcases hmiss with hm | hm
    · rw [hm]
    · cases h2 : jsIndexOf a (rows.map Row.id) with
      | none => rfl
      | some ia => rw [hm]
  · intro st2
    constructor <;> rfl

/-- Witness for `toggle_anchor_behavior` on `[p, s1, s2, q]` anchored at
`p`: the anchor survives the range select and moves on the other paths. -/
theorem toggle_anchor_behavior_witness :
    (toggle [rowP, rowS1, rowS2, rowQ]
        { selected := ["p"], lastClicked := some "p" } "q" true false).lastClicked
      = some "p" :=
  (toggle_anchor_behavior [rowP, rowS1, rowS2, rowQ]
      { selected := ["p"], lastClicked := some "p" } "q" "p" false rfl
      (by decide)).1 0 3 (by decide) (by decide)

/-! ## Claim C3: the sub-block contiguity invariant

The executable grouping invariant `groupedChk` is shown to be preserved
by deletion and duplication, and to entail the spec-level contiguity
statement `subBlockContig` whenever the non-sub rows carry distinct
identifiers. -/

theorem chkSubs_cons (pid : String) (s : Row) (rest : List Row) :
    chkSubs pid (s :: rest) =
      if s.sub then (s.parent == some pid) && chkSubs pid rest
      else chkSubs s.id rest := rfl

theorem groupedChk_cons (r : Row) (rest : List Row) :
    groupedChk (r :: rest) = (!r.sub && chkSubs r.id rest) := rfl

theorem chkSubs_of_groupedChk (l : List Row) (h : groupedChk l = true) (pid : String) :
    chkSubs pid l = true := by
  cases l with
  | nil => rfl
  | cons p rest =>
    rw [groupedChk_cons, Bool.and_eq_true] at h
    have hp : p.sub = false := by simpa using h.1
    rw [chkSubs_cons, if_neg (by simp [hp])]
    exact h.2

theorem groupedChk_of_chkSubs_all (l : List Row)
    (h : ∀ pid, chkSubs pid l = true) : groupedChk l = true := by
  cases l with
  | nil => rfl
  | cons s rest =>
    by_cases hs : s.sub = true
    · have h0 := h "0"
      have h1 := h "1"
      rw [chkSubs_cons, if_pos hs, Bool.and_eq_true] at h0 h1
      have e0 : s.parent = some "0" := eq_of_beq h0.1
      have e1 : s.parent = some "1" := eq_of_beq h1.1
      rw [e0] at e1
      simp at e1
    · have hs2 : s.sub = false := by simpa using hs
      have h0 := h "0"
      rw [chkSubs_cons, if_neg hs] at h0
      rw [groupedChk_cons, Bool.and_eq_true]
      exact ⟨by simp [hs2], h0⟩

theorem scanDel_chkSubs :
    ∀ (l : List Row) (tid : String) (i : Nat) (cascade : Bool) (pid : String),
      chkSubs pid l = true →
      chkSubs pid (scanDel tid i cascade l).1 = true ∧
      (pid = tid → cascade = true →
        ∀ pid2, chkSubs pid2 (scanDel tid i cascade l).1 = true) := by
  intro l
  induction l with
  | nil =>
    intro tid i cascade pid _
    exact ⟨rfl, fun _ _ _ => rfl⟩
  | cons r rest ih =>
    intro tid i cascade pid h
    by_cases hr : r.sub = true
    · rw [chkSubs_cons, if_pos hr, Bool.and_eq_true] at h
      obtain ⟨hpar, hrest⟩ := h
      by_cases hcasc : (cascade && r.sub && (r.parent == some tid)) = true
      · simp only [scanDel]
        rw [if_pos hcasc]
        exact ⟨(ih tid i true pid hrest).1,
          fun hpt _ pid2 => (ih tid i true pid hrest).2 hpt rfl pid2⟩
      · simp only [scanDel]
        rw [if_neg hcasc]
        by_cases hid : r.id = tid
        · rw [if_pos hid]
          refine ⟨(ih tid i true pid hrest).1, ?_⟩
          intro hpt hct _
          exfalso
          apply hcasc
          have hbt : (r.parent == some tid) = true := by rw [← hpt]; exact hpar
          rw [hct, hr, hbt]
          rfl
        · rw [if_neg hid]
          refine ⟨?_, ?_⟩
          · rw [chkSubs_cons, if_pos hr, Bool.and_eq_true]
            exact ⟨hpar, (ih tid (i + 1) false pid hrest).1⟩
          · intro hpt hct _
            exfalso
            apply hcasc
            have hbt : (r.parent == some tid) = true := by rw [← hpt]; exact hpar
            rw [hct, hr, hbt]
            rfl
    · have hr2 : r.sub = false := by simpa using hr
      rw [chkSubs_cons, if_neg hr] at h
      have hcasc : (cascade && r.sub && (r.parent == some tid)) = false := by
        rw [hr2]
        simp
      by_cases hid : r.id = tid
      · simp only [scanDel]
        rw [if_neg (by rw [hcasc]; exact Bool.false_ne_true), if_pos hid]
        have hall := (ih tid i true r.id h).2 hid rfl
        exact ⟨hall pid, fun _ _ pid2 => hall pid2⟩
      · simp only [scanDel]
        rw [if_neg (by rw [hcasc]; exact Bool.false_ne_true), if_neg hid]
        have hkeep := (ih tid (i + 1) false r.id h).1
        refine ⟨?_, ?_⟩
        · rw [chkSubs_cons, if_neg hr]
          exact hkeep
        · intro _ _ pid2
          rw [chkSubs_cons, if_neg hr]
          exact hkeep

theorem scanDel_sublist :
    ∀ (l : List Row) (tid : String) (i : Nat) (cascade : Bool),
      List.Sublist (scanDel tid i cascade l).1 l := by
  intro l
  induction l with
  | nil =>
    intro tid i cascade
    exact List.Sublist.refl []
  | cons r rest ih =>
    intro tid i cascade
    simp only [scanDel]
    by_cases hcasc : (cascade && r.sub && (r.parent == some tid)) = true
    · rw [if_pos hcasc]
      exact List.Sublist.cons r (ih tid i true)
    · rw [if_neg hcasc]
      by_cases hid : r.id = tid
      · rw [if_pos hid]
        exact List.Sublist.cons r (ih tid i true)
      · rw [if_neg hid]
        exact List.Sublist.cons₂ r (ih tid (i + 1) false)

theorem spliceDel_cons_succ {α : Type} (j : Nat) (s : α) (rest : List α) :
    spliceDel (j + 1) (s :: rest) = s :: spliceDel j rest := rfl

theorem spliceDel_sublist {α : Type} :
    ∀ (l : List α) (j : Nat), List.Sublist (spliceDel j l) l := by
  intro l
  induction l with
  | nil =>
    intro j
    simp [spliceDel]
  | cons s rest ih =>
    intro j
    cases j with
    | zero => exact List.Sublist.cons s (List.Sublist.refl rest)
    | succ k =>
      rw [spliceDel_cons_succ]
      exact List.Sublist.cons₂ s (ih k)

theorem chkSubs_spliceDel :
    ∀ (l : List Row) (j : Nat) (pid : String) (r : Row),
      chkSubs pid l = true → l[j]? = some r → r.sub = true →
      chkSubs pid (spliceDel j l) = true := by
  intro l
  induction l with
  | nil =>
    intro j pid r _ hget
    simp at hget
  | cons s rest ih =>
    intro j pid r h hget hsub
    cases j with
    | zero =>
      simp at hget
      subst hget
      rw [chkSubs_cons, if_pos hsub, Bool.and_eq_true] at h
      exact h.2
    | succ k =>
      rw [spliceDel_cons_succ]
      simp only [List.getElem?_cons_succ] at hget
      by_cases hs : s.sub = true
      · rw [chkSubs_cons, if_pos hs, Bool.and_eq_true] at h ⊢
        exact ⟨h.1, ih k pid r h.2 hget hsub⟩
      · rw [chkSubs_cons, if_neg hs] at h ⊢
        exact ih k s.id r h hget hsub

theorem chkSubs_takeWhile_parents :
    ∀ (l : List Row) (pid : String), chkSubs pid l = true →
      ∀ s ∈ l.takeWhile (fun x => x.sub), s.parent = some pid := by
  intro l
  induction l with
  | nil =>
    intro pid _ s hs
    simp [List.takeWhile] at hs
  | cons a t ih =>
    intro pid h s hs
    by_cases ha : a.sub = true
    · rw [chkSubs_cons, if_pos ha, Bool.and_eq_true] at h
      rw [List.takeWhile_cons, if_pos ha] at hs
      rcases List.mem_cons.mp hs with rfl | hs2
      · exact eq_of_beq h.1
      · exact ih pid h.2 s hs2
    · rw [List.takeWhile_cons, if_neg ha] at hs
      simp at hs

theorem chkSubs_dropWhile_groupedChk :
    ∀ (l : List Row) (pid : String), chkSubs pid l = true →
      groupedChk (l.dropWhile (fun x => x.sub)) = true := by
  intro l
  induction l with
  | nil =>
    intro pid _
    rfl
  | cons a t ih =>
    intro pid h
    by_cases ha : a.sub = true
    · rw [chkSubs_cons, if_pos ha, Bool.and_eq_true] at h
      rw [List.dropWhile_cons, if_pos ha]
      exact ih pid h.2
    · rw [chkSubs_cons, if_neg ha] at h
      rw [List.dropWhile_cons, if_neg ha, groupedChk_cons, Bool.and_eq_true]
      have ha2 : a.sub = false := by simpa using ha
      exact ⟨by simp [ha2], h⟩

theorem chkSubs_pred_takeWhile :
    ∀ (l : List Row) (pid : String), chkSubs pid l = true →
      l.takeWhile (fun s => s.sub && s.parent == some pid) =
        l.takeWhile (fun s => s.sub) ∧
      l.dropWhile (fun s => s.sub && s.parent == some pid) =
        l.dropWhile (fun s => s.sub) := by
  intro l
  induction l with
  | nil =>
    intro pid _
    exact ⟨rfl, rfl⟩
  | cons a t ih =>
    intro pid h
    by_cases ha : a.sub = true
    · rw [chkSubs_cons, if_pos ha, Bool.and_eq_true] at h
      have hpred : (a.sub && (a.parent == some pid)) = true := by
        rw [ha, h.1]
        rfl
      constructor
      · rw [List.takeWhile_cons, List.takeWhile_cons, if_pos hpred, if_pos ha,
          (ih pid h.2).1]
      · rw [List.dropWhile_cons, List.dropWhile_cons, if_pos hpred, if_pos ha]
        exact (ih pid h.2).2
    · have ha2 : a.sub = false := by simpa using ha
      have hpred : (a.sub && (a.parent == some pid)) = false := by
        rw [ha2]
        rfl
      constructor
      · rw [List.takeWhile_cons, List.takeWhile_cons, if_neg (by simp [hpred]),
          if_neg ha]
      · rw [List.dropWhile_cons, List.dropWhile_cons, if_neg (by simp [hpred]),
          if_neg ha]

theorem chkSubs_append_subs :
    ∀ (blk : List Row) (pid : String) (z : List Row),
      (∀ s ∈ blk, s.sub = true ∧ s.parent = some pid) →
      chkSubs pid (blk ++ z) = chkSubs pid z := by
  intro blk
  induction blk with
  | nil =>
    intro pid z _
    rfl
  | cons a t ih =>
    intro pid z hall
    have ha := hall a (List.mem_cons_self a t)
    rw [List.cons_append, chkSubs_cons, if_pos ha.1]
    rw [ih pid z fun s hs => hall s (List.mem_cons_of_mem a hs)]
    have : (a.parent == some pid) = true := by rw [ha.2]; exact beq_self_eq_true _
    rw [this]
    simp

theorem chkSubs_dropWhile_any (l : List Row) (pid : String) (h : chkSubs pid l = true)
    (pid2 : String) : chkSubs pid2 (l.dropWhile (fun x => x.sub)) = true :=
  chkSubs_of_groupedChk _ (chkSubs_dropWhile_groupedChk l pid h) pid2

theorem enumFrom_map_snd {α : Type} : ∀ (n : Nat) (l : List α),
    (List.enumFrom n l).map Prod.snd = l := by
  intro n l
  induction l generalizing n with
  | nil => rfl
  | cons a t ih => simp [List.enumFrom, ih]

theorem duplicateRow_nil (j : Nat) (ids : Nat → String) :
    duplicateRow [] j ids = [] := by
  simp [duplicateRow]

theorem duplicateRow_cons_succ (p : Row) (rest : List Row) (j : Nat)
    (ids : Nat → String) :
    duplicateRow (p :: rest) (j + 1) ids = p :: duplicateRow rest j ids := by
  simp only [duplicateRow, List.getElem?_cons_succ]
  cases hget : rest[j]? with
  | none => rfl
  | some row =>
    by_cases hs : row.sub = true
    · simp only [if_pos hs, spliceIns, List.take_succ_cons, List.drop_succ_cons,
        List.cons_append]
    · simp only [if_neg hs, List.take_succ_cons, List.drop_succ_cons, List.cons_append]
      have harith : ∀ n : Nat, j + 1 + 1 + n = (j + 1 + n) + 1 := fun n => by omega
      rw [harith, List.drop_succ_cons]

theorem duplicateRow_sub_eq (l : List Row) (j : Nat) (ids : Nat → String) (row : Row)
    (hget : l[j]? = some row) (hs : row.sub = true) :
    duplicateRow l j ids =
      l.take (j + 1) ++ { row with id := ids 0 } :: l.drop (j + 1) := by
  simp [duplicateRow, hget, hs, spliceIns]

theorem duplicateRow_nonsub_eq (l : List Row) (j : Nat) (ids : Nat → String) (row : Row)
    (hget : l[j]? = some row) (hs : row.sub = false) :
    duplicateRow l j ids =
      l.take (j + 1) ++
        ((l.drop (j + 1)).takeWhile fun x => x.sub && x.parent == some row.id) ++
        { row with id := ids 0 } ::
        ((((l.drop (j + 1)).takeWhile fun x => x.sub && x.parent == some row.id).enum.map
          fun p => { p.2 with id := ids (p.1 + 1), parent := some (ids 0) }) ++
        ((l.drop (j + 1)).dropWhile fun x => x.sub && x.parent == some row.id)) := by
  have hdrop : l.drop (j + 1 + ((l.drop (j + 1)).takeWhile
      fun x => x.sub && x.parent == some row.id).length) =
      (l.drop (j + 1)).dropWhile fun x => x.sub && x.parent == some row.id := by
    rw [← drop_len_takeWhile (fun x => x.sub && x.parent == some row.id) (l.drop (j + 1)),
      List.drop_drop]
  simp only [duplicateRow, hget, hs, Bool.false_eq_true, if_false, hdrop]
  simp

theorem duplicateRow_chkSubs :
    ∀ (l : List Row) (j : Nat) (pid : String) (ids : Nat → String),
      chkSubs pid l = true → chkSubs pid (duplicateRow l j ids) = true := by
  intro l
  induction l with
  | nil =>
    intro j pid ids _
    rw [duplicateRow_nil]
    rfl
  | cons s rest ih =>
    intro j pid ids h
    cases j with
    | succ k =>
      rw [duplicateRow_cons_succ]
      by_cases hs : s.sub = true
      · rw [chkSubs_cons, if_pos hs, Bool.and_eq_true] at h
        rw [chkSubs_cons, if_pos hs, Bool.and_eq_true]
        exact ⟨h.1, ih k pid ids h.2⟩
      · rw [chkSubs_cons, if_neg hs] at h
        rw [chkSubs_cons, if_neg hs]
        exact ih k s.id ids h
    | zero =>
      by_cases hs : s.sub = true
      · have heq : duplicateRow (s :: rest) 0 ids =
            s :: { s with id := ids 0 } :: rest := by
          have := duplicateRow_sub_eq (s :: rest) 0 ids s (by simp) hs
          simpa using this
        rw [heq]
        rw [chkSubs_cons, if_pos hs, Bool.and_eq_true] at h
        rw [chkSubs_cons, if_pos hs, Bool.and_eq_true]
        refine ⟨h.1, ?_⟩
        rw [chkSubs_cons, if_pos (show ({ s with id := ids 0 } : Row).sub = true from hs),
          Bool.and_eq_true]
        exact ⟨h.1, h.2⟩
      · have hs2 : s.sub = false := by simpa using hs
        rw [chkSubs_cons, if_neg hs] at h
        rw [duplicateRow_nonsub_eq (s :: rest) 0 ids s (by simp) hs2]
        simp only [List.take_succ_cons, List.take_zero, List.drop_succ_cons,
          List.drop_zero, List.singleton_append, List.cons_append, List.nil_append]
        rw [chkSubs_cons, if_neg hs]
        obtain ⟨htw, hdw⟩ := chkSubs_pred_takeWhile rest s.id h
        rw [htw, hdw]
        have hparents := chkSubs_takeWhile_parents rest s.id h
        have hblkprops : ∀ x ∈ rest.takeWhile (fun x => x.sub),
            x.sub = true ∧ x.parent = some s.id := fun x hx =>
          ⟨List.mem_takeWhile_imp hx, hparents x hx⟩
        rw [chkSubs_append_subs _ s.id _ hblkprops]
        rw [chkSubs_cons,
          if_neg (show ¬(({ s with id := ids 0 } : Row).sub = true) from by simp [hs2])]
        show chkSubs (ids 0) _ = true
        have hcopies : ∀ x ∈ (rest.takeWhile fun x => x.sub).enum.map
            (fun p => { p.2 with id := ids (p.1 + 1), parent := some (ids 0) }),
            x.sub = true ∧ x.parent = some (ids 0) := by
          intro x hx
          obtain ⟨q, hq, rfl⟩ := List.mem_map.mp hx
          refine ⟨?_, rfl⟩
          have hq2 : q.2 ∈ rest.takeWhile fun x => x.sub := by
            have h2 := List.mem_map_of_mem Prod.snd hq
            rwa [List.enum, enumFrom_map_snd] at h2
          exact (hblkprops q.2 hq2).1
        rw [chkSubs_append_subs _ (ids 0) _ hcopies]
        exact chkSubs_dropWhile_any rest s.id h (ids 0)

theorem duplicateRow_groupedChk (l : List Row) (j : Nat) (ids : Nat → String)
    (h : groupedChk l = true) : groupedChk (duplicateRow l j ids) = true :=
  groupedChk_of_chkSubs_all _ fun pid =>
    duplicateRow_chkSubs l j pid ids (chkSubs_of_groupedChk l h pid)

theorem scanDel_groupedChk (l : List Row) (tid : String) (i : Nat) (cascade : Bool)
    (h : groupedChk l = true) : groupedChk (scanDel tid i cascade l).1 = true :=
  groupedChk_of_chkSubs_all _ fun pid =>
    (scanDel_chkSubs l tid i cascade pid (chkSubs_of_groupedChk l h pid)).1

theorem spliceDel_groupedChk (l : List Row) (j : Nat) (r : Row)
    (h : groupedChk l = true) (hget : l[j]? = some r) (hsub : r.sub = true) :
    groupedChk (spliceDel j l) = true :=
  groupedChk_of_chkSubs_all _ fun pid =>
    chkSubs_spliceDel l j pid r (chkSubs_of_groupedChk l h pid) hget hsub

theorem nonSubIds_append (l1 l2 : List Row) :
    nonSubIds (l1 ++ l2) = nonSubIds l1 ++ nonSubIds l2 := by
  simp [nonSubIds]

theorem nonSubIds_cons_sub (s : Row) (t : List Row) (hs : s.sub = true) :
    nonSubIds (s :: t) = nonSubIds t := by
  simp [nonSubIds, List.filter_cons, hs]

theorem nonSubIds_cons_nonsub (s : Row) (t : List Row) (hs : s.sub = false) :
    nonSubIds (s :: t) = s.id :: nonSubIds t := by
  simp [nonSubIds, List.filter_cons, hs]

theorem nonSubIds_subset_map (l : List Row) (x : String) (h : x ∈ nonSubIds l) :
    x ∈ l.map Row.id := by
  simp only [nonSubIds, List.mem_map] at h ⊢
  obtain ⟨r, hr, rfl⟩ := h
  exact ⟨r, (List.mem_filter.mp hr).1, rfl⟩

theorem mem_nonSubIds (l : List Row) (r : Row) (hr : r ∈ l) (hs : r.sub = false) :
    r.id ∈ nonSubIds l := by
  simp only [nonSubIds, List.mem_map]
  exact ⟨r, List.mem_filter.mpr ⟨hr, by simp [hs]⟩, rfl⟩

theorem nonSubIds_sublist {l1 l2 : List Row} (h : List.Sublist l1 l2) :
    List.Sublist (nonSubIds l1) (nonSubIds l2) :=
  (h.filter _).map _

theorem nonSubIds_all_sub (l : List Row) (h : ∀ x ∈ l, x.sub = true) :
    nonSubIds l = [] := by
  simp only [nonSubIds]
  rw [List.filter_eq_nil_iff.mpr fun a ha => by simp [h a ha]]
  rfl

theorem chkSubs_parent_cases :
    ∀ (l : List Row) (pid : String), chkSubs pid l = true →
      ∀ s ∈ l, s.sub = true →
        s.parent = some pid ∨ ∃ h2, s.parent = some h2 ∧ h2 ∈ nonSubIds l := by
  intro l
  induction l with
  | nil =>
    intro pid _ s hs
    simp at hs
  | cons a t ih =>
    intro pid h s hs hsub
    by_cases ha : a.sub = true
    · rw [chkSubs_cons, if_pos ha, Bool.and_eq_true] at h
      rcases List.mem_cons.mp hs with rfl | hs2
      · exact Or.inl (eq_of_beq h.1)
      · rcases ih pid h.2 s hs2 hsub with hp | ⟨h2, hp2, hmem⟩
        · exact Or.inl hp
        · exact Or.inr ⟨h2, hp2, by rw [nonSubIds_cons_sub a t ha]; exact hmem⟩
    · have ha2 : a.sub = false := by simpa using ha
      rw [chkSubs_cons, if_neg ha] at h
      rcases List.mem_cons.mp hs with rfl | hs2
      · rw [hsub] at ha2
        cases ha2
      · rcases ih a.id h s hs2 hsub with hp | ⟨h2, hp2, hmem⟩
        · exact Or.inr ⟨a.id, hp, by
            rw [nonSubIds_cons_nonsub a t ha2]
            exact List.mem_cons_self a.id _⟩
        · exact Or.inr ⟨h2, hp2, by
            rw [nonSubIds_cons_nonsub a t ha2]
            exact List.mem_cons_of_mem a.id hmem⟩

theorem grouped_parent_mem (l : List Row) (h : groupedChk l = true) :
    ∀ s ∈ l, s.sub = true → ∃ h2, s.parent = some h2 ∧ h2 ∈ nonSubIds l := by
  intro s hs hsub
  cases l with
  | nil => simp at hs
  | cons p rest =>
    have hp : p.sub = false := by
      rw [groupedChk_cons, Bool.and_eq_true] at h
      simpa using h.1
    rcases chkSubs_parent_cases (p :: rest) p.id
        (chkSubs_of_groupedChk _ h p.id) s hs hsub with hpar | hex
    · exact ⟨p.id, hpar, by
        rw [nonSubIds_cons_nonsub p rest hp]
        exact List.mem_cons_self p.id _⟩
    · exact hex

theorem subsOf_cons (s : Row) (t : List Row) (pid : String) :
    subsOf (s :: t) pid =
      if s.sub && s.parent == some pid then s :: subsOf t pid
      else subsOf t pid := by
  simp [subsOf, List.filter_cons]

theorem subsOf_append (l1 l2 : List Row) (pid : String) :
    subsOf (l1 ++ l2) pid = subsOf l1 pid ++ subsOf l2 pid := by
  simp [subsOf]

theorem subsOf_eq_self (l : List Row) (pid : String)
    (h : ∀ x ∈ l, x.sub = true ∧ x.parent = some pid) : subsOf l pid = l := by
  induction l with
  | nil => rfl
  | cons a t ih =>
    have ha := h a (List.mem_cons_self a t)
    rw [subsOf_cons, if_pos (by rw [ha.1, ha.2]; simp)]
    rw [ih fun x hx => h x (List.mem_cons_of_mem a hx)]

theorem subsOf_eq_nil (l : List Row) (pid : String)
    (h : ∀ x ∈ l, (x.sub && x.parent == some pid) = false) : subsOf l pid = [] :=
  List.filter_eq_nil_iff.mpr fun a ha => by simp [h a ha]

theorem grouped_nodup_subBlockContig :
    ∀ (n : Nat) (l : List Row), l.length ≤ n → groupedChk l = true →
      (nonSubIds l).Nodup → subBlockContig l := by
  intro n
  induction n with
  | zero =>
    intro l hlen _ _
    have hnil : l = [] := List.eq_nil_of_length_eq_zero (Nat.le_zero.mp hlen)
    subst hnil
    intro r hr
    simp at hr
  | succ n ihn =>
    intro l hlen hg hnd
    cases l with
    | nil =>
      intro r hr
      simp at hr
    | cons p rest =>
      rw [groupedChk_cons, Bool.and_eq_true] at hg
      have hp : p.sub = false := by simpa using hg.1
      have hc : chkSubs p.id rest = true := hg.2
      have hsplitrest :
          rest.takeWhile (fun x => x.sub) ++ rest.dropWhile (fun x => x.sub) = rest :=
        List.takeWhile_append_dropWhile ..
      have hparents := chkSubs_takeWhile_parents rest p.id hc
      have hblkprops : ∀ x ∈ rest.takeWhile (fun x => x.sub),
          x.sub = true ∧ x.parent = some p.id := fun x hx =>
        ⟨List.mem_takeWhile_imp hx, hparents x hx⟩
      have hg2 : groupedChk (rest.dropWhile (fun x => x.sub)) = true :=
        chkSubs_dropWhile_groupedChk rest p.id hc
      have hids : nonSubIds (p :: rest) =
          p.id :: nonSubIds (rest.dropWhile (fun x => x.sub)) := by
        rw [nonSubIds_cons_nonsub p rest hp, ← hsplitrest, nonSubIds_append,
          nonSubIds_all_sub _ (fun x hx => (hblkprops x hx).1), List.nil_append,
          hsplitrest]
      rw [hids] at hnd
      have hpnotin : p.id ∉ nonSubIds (rest.dropWhile (fun x => x.sub)) :=
        (List.nodup_cons.mp hnd).1
      have hnd2 : (nonSubIds (rest.dropWhile (fun x => x.sub))).Nodup :=
        (List.nodup_cons.mp hnd).2
      have hlen2 : (rest.dropWhile (fun x => x.sub)).length ≤ n := by
        have h1 : (rest.dropWhile (fun x => x.sub)).length ≤ rest.length := by
          rw [← drop_len_takeWhile (fun x => x.sub) rest]
          simp [List.length_drop]
        simp at hlen
        omega
      have ihrest2 := ihn (rest.dropWhile (fun x => x.sub)) hlen2 hg2 hnd2
      have hsubsblk : subsOf (p :: rest) p.id = rest.takeWhile (fun x => x.sub) := by
        conv_lhs => rw [← hsplitrest]
        rw [show (p :: (rest.takeWhile (fun x => x.sub) ++
            rest.dropWhile (fun x => x.sub))) =
          p :: rest.takeWhile (fun x => x.sub) ++ rest.dropWhile (fun x => x.sub)
          from rfl]
        rw [show (p :: rest.takeWhile (fun x => x.sub) ++
            rest.dropWhile (fun x => x.sub) : List Row) =
          (p :: rest.takeWhile (fun x => x.sub)) ++ rest.dropWhile (fun x => x.sub)
          from rfl]
        rw [subsOf_append, subsOf_cons, if_neg (by simp [hp])]
        rw [subsOf_eq_self _ p.id hblkprops]
        rw [subsOf_eq_nil _ p.id ?hnilpred]
        · simp
        case hnilpred =>
          intro x hx
          by_cases hxs : x.sub = true
          · obtain ⟨h2, hxp, hmem⟩ := grouped_parent_mem _ hg2 x hx hxs
            have hne2 : h2 ≠ p.id := fun hcontra => hpnotin (hcontra ▸ hmem)
            rw [hxs, hxp]
            simp
            exact fun hcontra => hne2 hcontra
          · have hxs2 : x.sub = false := by simpa using hxs
            rw [hxs2]
            rfl
      intro r hr hrsub
      rcases List.mem_cons.mp hr with rfl | hr2
      · rw [hp] at hrsub
        cases hrsub
      · rw [← hsplitrest] at hr2
        rcases List.mem_append.mp hr2 with hrblk | hrrest2
        · refine ⟨p.id, [], rest.dropWhile (fun x => x.sub), p,
            (hblkprops r hrblk).2, hp, rfl, ?_⟩
          rw [hsubsblk]
          simp only [List.nil_append, List.cons_append]
          rw [hsplitrest]
        · obtain ⟨pid, pre, post, p2, hpar, hp2sub, hp2id, heq⟩ :=
            ihrest2 r hrrest2 hrsub
          have hp2mem : p2 ∈ rest.dropWhile (fun x => x.sub) := by
            rw [heq]
            simp
          have hpidmem : pid ∈ nonSubIds (rest.dropWhile (fun x => x.sub)) := by
            rw [← hp2id]
            exact mem_nonSubIds _ p2 hp2mem hp2sub
          have hne : p.id ≠ pid := fun hcontra => hpnotin (hcontra ▸ hpidmem)
          have hsubs2 : subsOf (p :: rest) pid =
              subsOf (rest.dropWhile (fun x => x.sub)) pid := by
            conv_lhs => rw [← hsplitrest]
            rw [show (p :: (rest.takeWhile (fun x => x.sub) ++
                rest.dropWhile (fun x => x.sub))) =
              (p :: rest.takeWhile (fun x => x.sub)) ++
                rest.dropWhile (fun x => x.sub) from rfl]
            rw [subsOf_append, subsOf_cons, if_neg (by simp [hp])]
            rw [subsOf_eq_nil (rest.takeWhile (fun x => x.sub)) pid ?hblknil]
            · simp
            case hblknil =>
              intro x hx
              rw [(hblkprops x hx).1, (hblkprops x hx).2]
              simp
              exact fun hcontra => hne hcontra
          refine ⟨pid, p :: rest.takeWhile (fun x => x.sub) ++ pre, post, p2,
            hpar, hp2sub, hp2id, ?_⟩
          rw [hsubs2]
          conv_lhs => rw [← hsplitrest, heq]
          simp [List.append_assoc]

theorem grouped_contig (l : List Row) (hg : groupedChk l = true)
    (hnd : (nonSubIds l).Nodup) : subBlockContig l :=
  grouped_nodup_subBlockContig l.length l (Nat.le_refl _) hg hnd

theorem duplicateRow_nonSubIds_nodup (l : List Row) (j : Nat) (ids : Nat → String)
    (hnd : (nonSubIds l).Nodup) (hfresh : ids 0 ∉ l.map Row.id) :
    (nonSubIds (duplicateRow l j ids)).Nodup := by
  cases hget : l[j]? with
  | none =>
    have heq : duplicateRow l j ids = l := by simp [duplicateRow, hget]
    rw [heq]
    exact hnd
  | some row =>
    by_cases hs : row.sub = true
    · rw [duplicateRow_sub_eq l j ids row hget hs, nonSubIds_append,
        nonSubIds_cons_sub _ _ (show ({ row with id := ids 0 } : Row).sub = true from hs),
        ← nonSubIds_append, List.take_append_drop]
      exact hnd
    · have hs2 : row.sub = false := by simpa using hs
      rw [duplicateRow_nonsub_eq l j ids row hget hs2]
      have hsubsub : ∀ x ∈ (l.drop (j + 1)).takeWhile
          (fun x => x.sub && x.parent == some row.id), x.sub = true := by
        intro x hx
        have h2 := List.mem_takeWhile_imp hx
        rw [Bool.and_eq_true] at h2
        exact h2.1
      have hcopysub : ∀ x ∈ ((l.drop (j + 1)).takeWhile
          (fun x => x.sub && x.parent == some row.id)).enum.map
          (fun p => ({ p.2 with id := ids (p.1 + 1), parent := some (ids 0) } : Row)),
          x.sub = true := by
        intro x hx
        obtain ⟨q, hq, rfl⟩ := List.mem_map.mp hx
        have hq2 : q.2 ∈ (l.drop (j + 1)).takeWhile
            (fun x => x.sub && x.parent == some row.id) := by
          have h2 := List.mem_map_of_mem Prod.snd hq
          rwa [List.enum, enumFrom_map_snd] at h2
        exact hsubsub q.2 hq2
      rw [nonSubIds_append, nonSubIds_append, nonSubIds_all_sub _ hsubsub,
        nonSubIds_cons_nonsub _ _ (show ({ row with id := ids 0 } : Row).sub = false from hs2),
        nonSubIds_append, nonSubIds_all_sub _ hcopysub]
      simp only [List.append_assoc, List.nil_append, List.append_nil]
      have hl : nonSubIds l = nonSubIds (l.take (j + 1)) ++
          nonSubIds ((l.drop (j + 1)).dropWhile
            (fun x => x.sub && x.parent == some row.id)) := by
        conv_lhs => rw [← List.take_append_drop (j + 1) l]
        rw [nonSubIds_append]
        congr 1
        conv_lhs =>
          rw [← List.takeWhile_append_dropWhile
            (fun x => x.sub && x.parent == some row.id) (l.drop (j + 1))]
        rw [nonSubIds_append, nonSubIds_all_sub _ hsubsub, List.nil_append]
      rw [hl] at hnd
      have hfresh2 : ids 0 ∉ nonSubIds (l.take (j + 1)) ++
          nonSubIds ((l.drop (j + 1)).dropWhile
            (fun x => x.sub && x.parent == some row.id)) := by
        intro hmem
        rw [← hl] at hmem
        exact hfresh (nonSubIds_subset_map l _ hmem)
      exact List.nodup_middle.mpr (List.nodup_cons.mpr ⟨hfresh2, hnd⟩)

/-- C3 (amended).  On a sheet satisfying the sub-block grouping invariant
whose non-sub rows have pairwise distinct identifiers, deleting the row
at any index (with its cascade) and duplicating the row at any index
(with a fresh identifier for the copy) both preserve the spec-level
contiguity property: every sub-row's siblings form one contiguous run
immediately following their parent.  (Insert-at-index and drag reorder,
also named by the original claim, can violate the invariant: see the
counterexample.) -/
theorem delete_duplicate_preserve_contiguity (rows : List Row) (index : Nat)
    (ids : Nat → String) (hg : groupedChk rows = true)
    (hnd : (nonSubIds rows).Nodup) (hfresh : ids 0 ∉ rows.map Row.id) :
    subBlockContig (deleteRowByIndex rows index).1 ∧
    subBlockContig (duplicateRow rows index ids) := by
  constructor
  · cases hget : rows[index]? with
    | none =>
      have heq : (deleteRowByIndex rows index).1 = rows := by
        simp [deleteRowByIndex, hget]
      rw [heq]
      exact grouped_contig rows hg hnd
    | some row =>
      by_cases hs : row.sub = true
      · have heq : (deleteRowByIndex rows index).1 = spliceDel index rows := by
          simp [deleteRowByIndex, hget, hs]
        rw [heq]
        exact grouped_contig _ (spliceDel_groupedChk rows index row hg hget hs)
          (hnd.sublist (nonSubIds_sublist (spliceDel_sublist rows index)))
      · have heq : (deleteRowByIndex rows index).1 = (scanDel row.id 0 false rows).1 := by
          simp [deleteRowByIndex, hget, hs]
        rw [heq]
        exact grouped_contig _ (scanDel_groupedChk rows row.id 0 false hg)
          (hnd.sublist (nonSubIds_sublist (scanDel_sublist rows row.id 0 false)))
  · exact grouped_contig _ (duplicateRow_groupedChk rows index ids hg)
      (duplicateRow_nonSubIds_nodup rows index ids hnd hfresh)

/-- Witness for `delete_duplicate_preserve_contiguity` on the concrete
sheet `[p, s1, s2, q]` at index 0 with a fresh id supply. -/
theorem delete_duplicate_preserve_contiguity_witness :
    subBlockContig (deleteRowByIndex [rowP, rowS1, rowS2, rowQ] 0).1 ∧
    subBlockContig (duplicateRow [rowP, rowS1, rowS2, rowQ] 0 wIds) :=
  delete_duplicate_preserve_contiguity [rowP, rowS1, rowS2, rowQ] 0 wIds
    (by decide) (by decide) (by decide)

/-- C3 (counterexample).  The sheet `[p, s1, s2]` satisfies both the
grouping invariant and the spec-level contiguity property, yet
`insertRowAt` at index 2 (a flat position strictly inside `p`'s
sub-block, offered by the row context menu as "Insert Row Above" on
`s2`) produces `[p, s1, x, s2]`, which violates contiguity; likewise a
drag of `p` in `[p, q, s3, s4]` dropped at the visible position of `s4`
lands inside `q`'s sub-block and produces `[q, s3, p, s4]`, also
violating contiguity.  So the claim's quantification over insert and
drag-reorder operations is false on the code. -/
theorem insert_drag_break_contiguity :
    groupedChk exSheet3.rows = true ∧
    subBlockContig exSheet3.rows ∧
    ¬ subBlockContig (insertRowAt exSheet3 2 "x" "t").rows ∧
    ¬ subBlockContig (onDragEnd [rowP, rowQ, rowS3, rowS4] 0 (some 3)) := by
  refine ⟨by decide, ?_, ?_, ?_⟩
  · intro r hr hrsub
    fin_cases hr
    · exact absurd hrsub (by decide)
    · exact ⟨"p", [], [], rowP, by decide, by decide, by decide, by decide⟩
    · exact ⟨"p", [], [], rowP, by decide, by decide, by decide, by decide⟩
  · intro h
    have hres : (insertRowAt exSheet3 2 "x" "t").rows =
        [rowP, rowS1, ⟨"x", ["t"], false, none, false⟩, rowS2] := by decide
    obtain ⟨pid, pre, post, p, hpar, hpsub, hpid, heq⟩ :=
      h rowS2 (by rw [hres]; decide) rfl
    have hpid2 : pid = "p" := (Option.some.inj hpar).symm
    subst hpid2
    rw [hres] at heq
    rw [show subsOf [rowP, rowS1, ⟨"x", ["t"], false, none, false⟩, rowS2] "p" =
      [rowS1, rowS2] from by decide] at heq
    rcases pre with _ | ⟨a, pre⟩
    · have h2 := congrArg (fun l => l[2]?) heq
      simp at h2
      first
        | exact absurd h2 (by decide)
        | exact absurd h2.1 (by decide)
        | exact absurd h2.2 (by decide)
    · rcases pre with _ | ⟨b, pre⟩
      · have h2 := congrArg (fun l => l[2]?) heq
        simp at h2
        first
          | exact absurd h2 (by decide)
          | exact absurd h2.1 (by decide)
          | exact absurd h2.2 (by decide)
      · have hlen := congrArg List.length heq
        simp [List.length_append] at hlen
        omega
  · intro h
    have hres : onDragEnd [rowP, rowQ, rowS3, rowS4] 0 (some 3) =
        [rowQ, rowS3, rowP, rowS4] := by decide
    obtain ⟨pid, pre, post, p, hpar, hpsub, hpid, heq⟩ :=
      h rowS4 (by rw [hres]; decide) rfl
    have hpid2 : pid = "q" := (Option.some.inj hpar).symm
    subst hpid2
    rw [hres] at heq
    rw [show subsOf [rowQ, rowS3, rowP, rowS4] "q" = [rowS3, rowS4] from by decide]
      at heq
    rcases pre with _ | ⟨a, pre⟩
    · have h2 := congrArg (fun l => l[2]?) heq
      simp at h2
      first
        | exact absurd h2 (by decide)
        | exact absurd h2.1 (by decide)
        | exact absurd h2.2 (by decide)
    · rcases pre with _ | ⟨b, pre⟩
      · have h2 := congrArg (fun l => l[2]?) heq
        simp at h2
        first
          | exact absurd h2 (by decide)
          | exact absurd h2.1 (by decide)
          | exact absurd h2.2 (by decide)
      · have hlen := congrArg List.length heq
        simp [List.length_append] at hlen
        omega

end LTS
